import Mathlib

/-!
Verification of the ordered-record processing engine of `bustools_cli-rs`:
the in-memory run builder (`sort_into_btree`), the external sort
(`sort_on_disk` / `merge_chunks`), the overlap merger
(`merge_busfiles_on_overlap`), concatenation (`concat_bus`) and the
barcode-correction engine (`correct_single_cb`, `fix_record`).

Records, the key order and the algorithms are embedded shallowly:
pure Lean functions over lists, mirroring the Rust source.  Types and
iterators that live in the external `bustools` / `bktree` crates
(`BusRecord`, `MultiIterator`, `CellUmiIteratorMulti`, `BkTree`) are
modelled from the spec, as noted on each such definition.
-/

namespace Bus

/-- Modelled from the spec: the Record of §3 (`bustools::io::BusRecord`,
whose definition lives in the external `bustools` crate, not in this
repository): fields `cb`, `umi`, `ec`, `count`, `flag`, all unsigned
integers; `count` is strictly additive. -/
structure BusRecord where
  cb : Nat
  umi : Nat
  ec : Nat
  count : Nat
  flag : Nat
  deriving DecidableEq

/-- The full ordering key `(CB, UMI, EC, FLAG)` used by `sort_into_btree`. -/
abbrev Key := Nat × Nat × Nat × Nat

/-- The full key of a record, as used for the `BTreeMap` in `sort_into_btree`. -/
def keyOf (r : BusRecord) : Key := (r.cb, r.umi, r.ec, r.flag)

/-- Lexicographic strict order on full keys: the `Ord` order of the Rust
tuple `(u64, u64, u32, u32)` that keys the `BTreeMap`. -/
def keyLt (a b : Key) : Prop :=
  a.1 < b.1 ∨ (a.1 = b.1 ∧ (a.2.1 < b.2.1 ∨ (a.2.1 = b.2.1 ∧
    (a.2.2.1 < b.2.2.1 ∨ (a.2.2.1 = b.2.2.1 ∧ a.2.2.2 < b.2.2.2)))))

instance (a b : Key) : Decidable (keyLt a b) := by
  unfold keyLt; infer_instance

/-- Strict order on records, by full key. -/
def rLt (a b : BusRecord) : Prop := keyLt (keyOf a) (keyOf b)

instance (a b : BusRecord) : Decidable (rLt a b) := by
  unfold rLt; infer_instance

/-- One `BTreeMap` insertion step of `sort_into_btree` (src/sort.rs:25-32):
if a record with the same `(CB,UMI,EC,FLAG)` key is already stored, add the
incoming `COUNT` onto the stored record; otherwise insert the record at its
key position.  The map is represented as its value list in ascending key
order (the `BTreeMap` iteration order). -/
def btreeInsert (r : BusRecord) : List BusRecord → List BusRecord
  | [] => [r]
  | x :: xs =>
    if keyOf r = keyOf x then { x with count := x.count + r.count } :: xs
    else if keyLt (keyOf r) (keyOf x) then r :: x :: xs
    else x :: btreeInsert r xs

/-- `sort_into_btree` (src/sort.rs:20-34): fold every record of the input
into the `BTreeMap`; the result is the map's value sequence in ascending
key order. -/
def sort_into_btree (l : List BusRecord) : List BusRecord :=
  l.foldl (fun acc r => btreeInsert r acc) []

/-- Total `COUNT` mass a record list carries at one full key. -/
def mass (k : Key) (l : List BusRecord) : Nat :=
  (l.map (fun r => if keyOf r = k then r.count else 0)).sum

/-- The keys of a record list, in list order. -/
def keysOf (l : List BusRecord) : List Key := l.map keyOf

/-- The coarse key `(CB, UMI)` by which `groupby_cbumi` groups records. -/
def cbumiOf (r : BusRecord) : Nat × Nat := (r.cb, r.umi)

/-- The coarse part of a full key. -/
def coarseOfKey (k : Key) : Nat × Nat := (k.1, k.2.1)

/-- Lexicographic strict order on coarse `(CB, UMI)` keys. -/
def cLt (a b : Nat × Nat) : Prop := a.1 < b.1 ∨ (a.1 = b.1 ∧ a.2 < b.2)

instance (a b : Nat × Nat) : Decidable (cLt a b) := by
  unfold cLt; infer_instance

/-- Deduplicating sorted insertion of a coarse key. -/
def insertCbumi (k : Nat × Nat) : List (Nat × Nat) → List (Nat × Nat)
  | [] => [k]
  | x :: xs =>
    if k = x then x :: xs
    else if cLt k x then k :: x :: xs
    else x :: insertCbumi k xs

/-- The ascending, deduplicated list of coarse keys occurring in a list. -/
def sortedCbumis (l : List (Nat × Nat)) : List (Nat × Nat) :=
  l.foldl (fun acc k => insertCbumi k acc) []

/-- The records of one source that carry the coarse key `c`. -/
def groupOf (c : Nat × Nat) (src : List BusRecord) : List BusRecord :=
  src.filter (fun r => decide (cbumiOf r = c))

/-- Modelled from the spec: the Synchronized Multi-Source Merge of §4.3
(`bustools::merger::MultiIterator` together with `groupby_cbumi`, both in
the external `bustools` crate, not in this repository).  Its output
contract: one Merge Group per coarse `(cb, umi)` key present in any
source, in strictly ascending key order; a group holds, for each source
that has the key, exactly that source's records for the key, and omits
sources without it.  Sources are assumed ascending by coarse key, as the
spec requires of every `Source`. -/
def multiIteratorGroups (sources : List (List BusRecord)) :
    List ((Nat × Nat) × List (List BusRecord)) :=
  (sortedCbumis (sources.flatten.map cbumiOf)).map
    (fun c => (c, (sources.map (fun src => groupOf c src)).filter (fun g => !g.isEmpty)))

/-- `merge_chunks` (src/sort.rs:56-60): flatten one Merge Group's
per-source record lists and re-aggregate them through the run builder. -/
def merge_chunks (record_dict : List (List BusRecord)) : List BusRecord :=
  sort_into_btree record_dict.flatten

/-- The merge phase of `sort_on_disk` (src/sort.rs:101-120) and of
`concat_bus`: drive the multi-source merge over the sources and append
each group's `merge_chunks` output in group order. -/
def mergedOutput (sources : List (List BusRecord)) : List BusRecord :=
  ((multiIteratorGroups sources).map (fun g => merge_chunks g.2)).flatten

/-- The `chunks(chunksize)` batching of the input (src/sort.rs:83):
consecutive batches of `n` records, the last possibly smaller. -/
def chunksOf (n : Nat) : List BusRecord → List (List BusRecord)
  | [] => []
  | x :: xs =>
    if hn : n = 0 then []
    else (x :: xs).take n :: chunksOf n ((x :: xs).drop n)
  termination_by l => l.length
  decreasing_by
    simp only [List.length_drop, List.length_cons]
    omega

/-- The external sort over an explicit chunk partition: per-chunk run
building (src/sort.rs:87) followed by the merge phase. -/
def external_sort (chunks : List (List BusRecord)) : List BusRecord :=
  mergedOutput (chunks.map sort_into_btree)

/-- `sort_on_disk` (src/sort.rs:74-122): batch the input into chunks of
`chunksize` records, sort each chunk with `sort_into_btree`, then merge
the per-chunk runs. -/
def sort_on_disk (chunksize : Nat) (input : List BusRecord) : List BusRecord :=
  external_sort (chunksOf chunksize input)

/-- Modelled from the spec: `bustools::io::BusParams`, the busfile header
parameters (barcode and UMI bit-widths). -/
structure BusParams where
  cb_len : Nat
  umi_len : Nat
  deriving DecidableEq

/-- Modelled from the spec: a busfile as its header parameters plus its
record sequence (the byte-level format is out of scope). -/
structure BusFile where
  params : BusParams
  records : List BusRecord
  deriving DecidableEq

/-- `merge_busfiles_on_overlap` (src/busmerger.rs:16-46): iterate the
two-source coarse-key merge (`CellUmiIteratorMulti`, modelled from the
spec like `multiIteratorGroups`); whenever both sources contributed
(`record_map.len() == 2`), write each source's records for the key to
that source's output.  Both outputs are created with the hardcoded
header `BusParams { cb_len: 16, umi_len: 12 }` (src/busmerger.rs:23);
the input headers are never consulted. -/
def merge_busfiles_on_overlap (f1 f2 : BusFile) : BusFile × BusFile :=
  let shared := (sortedCbumis ((f1.records ++ f2.records).map cbumiOf)).filter
    (fun c => decide (c ∈ f1.records.map cbumiOf) && decide (c ∈ f2.records.map cbumiOf))
  (⟨⟨16, 12⟩, (shared.map (fun c => groupOf c f1.records)).flatten⟩,
   ⟨⟨16, 12⟩, (shared.map (fun c => groupOf c f2.records)).flatten⟩)

/-- `concat_bus` (src/concat.rs:29-67): read all inputs, assert that
every input's header parameters equal the first input's
(src/concat.rs:39-45) before any merging, then drive the multi-source
merge over the whole files.  The `assert_eq!` abort is modelled as an
`Except.error`; the empty-input panic (`filenames[0]`) likewise. -/
def concat_bus : List BusFile → Except String BusFile
  | [] => .error "no input busfiles"
  | f :: fs =>
    if fs.all (fun g => decide (g.params = f.params)) then
      .ok ⟨f.params, mergedOutput ((f :: fs).map BusFile.records)⟩
    else .error "missmatched Header parameters in busfiles"

/-- The distance bound of the correction engine (src/correct.rs:18). -/
def MAX_DIST : Nat := 1

/-- `my_hamming` (src/correct.rs:20-31): positions at which the two
barcodes differ.  Barcodes are lists of characters; the Rust function
asserts equal lengths, so it is only applied under that hypothesis. -/
def my_hamming (a b : List Char) : Nat :=
  ((a.zip b).filter (fun p => decide (p.1 ≠ p.2))).length

/-- `CorrectionResult` (src/correct.rs:33-38), spelling kept from the source. -/
inductive CorrectionResult where
  | SingleHit (cb : List Char)
  | NoHit
  | Ambigous (cands : List (List Char))
  deriving DecidableEq

/-- Modelled from the spec: `BkTree::find` of the external `bktree`
crate — the Correction Index query of §4.4, returning every inserted
whitelist entry within the given distance of the query, with its
distance.  The tree is represented by the list of inserted entries. -/
def bkFind (tree : List (List Char)) (q : List Char) (d : Nat) : List (List Char × Nat) :=
  tree.filterMap (fun w => if my_hamming q w ≤ d then some (w, my_hamming q w) else none)

/-- `correct_single_cb` (src/correct.rs:42-78): query the index within
`MAX_DIST`; no match is `NoHit`, one match is a `SingleHit`, and with
several matches the distance-0 hits are filtered out first — a unique
exact hit wins, anything else is `Ambigous` over all matches. -/
def correct_single_cb (cb : List Char) (bk : List (List Char)) : CorrectionResult :=
  match bkFind bk cb MAX_DIST with
  | [] => .NoHit
  | [(new_cb, _d)] => .SingleHit new_cb
  | ms =>
    match ms.filterMap (fun p => if p.2 = 0 then some p.1 else none) with
    | [cb_correct] => .SingleHit cb_correct
    | _ => .Ambigous (ms.map Prod.fst)

/-- `fix_record` (src/correct.rs:112-120): look the record's `CB` up in
the correction map; on a hit emit the record with `CB` replaced, on a
miss drop it.  The `HashMap<u64, u64>` is represented as an association
list. -/
def fix_record (record : BusRecord) (corrector : List (Nat × Nat)) : Option BusRecord :=
  match corrector.lookup record.cb with
  | some corrected_cb => some { record with cb := corrected_cb }
  | none => none

/-- The record-level correction pass (src/correct.rs:121-122):
`filter_map` of `fix_record` over the whole dataset. -/
def correct_records (corrector : List (Nat × Nat)) (records : List BusRecord) : List BusRecord :=
  records.filterMap (fun record => fix_record record corrector)

theorem keyLt_irrefl (a : Key) : ¬ keyLt a a := by
  obtain ⟨a1, a2, a3, a4⟩ := a
  simp only [keyLt]
  omega

theorem keyLt_trans {a b c : Key} (h1 : keyLt a b) (h2 : keyLt b c) : keyLt a c := by
  obtain ⟨a1, a2, a3, a4⟩ := a
  obtain ⟨b1, b2, b3, b4⟩ := b
  obtain ⟨c1, c2, c3, c4⟩ := c
  simp only [keyLt] at *
  omega

theorem keyLt_asymm {a b : Key} (h1 : keyLt a b) : ¬ keyLt b a := by
  obtain ⟨a1, a2, a3, a4⟩ := a
  obtain ⟨b1, b2, b3, b4⟩ := b
  simp only [keyLt] at *
  omega

theorem keyLt_trichotomy (a b : Key) : keyLt a b ∨ a = b ∨ keyLt b a := by
  obtain ⟨a1, a2, a3, a4⟩ := a
  obtain ⟨b1, b2, b3, b4⟩ := b
  simp only [keyLt, Prod.mk.injEq]
  omega

theorem keyLt_ne {a b : Key} (h : keyLt a b) : a ≠ b := by
  intro he; subst he; exact keyLt_irrefl a h

/-- A record is determined by its full key and its count. -/
theorem record_ext {r s : BusRecord} (hk : keyOf r = keyOf s)
    (hc : r.count = s.count) : r = s := by
  obtain ⟨rc, ru, re, rn, rf⟩ := r
  obtain ⟨sc, su, se, sn, sf⟩ := s
  simp only [keyOf, Prod.mk.injEq] at hk
  simp_all

@[simp] theorem mass_nil (k : Key) : mass k [] = 0 := rfl

@[simp] theorem mass_cons (k : Key) (r : BusRecord) (l : List BusRecord) :
    mass k (r :: l) = (if keyOf r = k then r.count else 0) + mass k l := by
  simp [mass]

@[simp] theorem mass_append (k : Key) (l1 l2 : List BusRecord) :
    mass k (l1 ++ l2) = mass k l1 + mass k l2 := by
  simp [mass]

@[simp] theorem keysOf_nil : keysOf [] = [] := rfl

@[simp] theorem keysOf_cons (r : BusRecord) (l : List BusRecord) :
    keysOf (r :: l) = keyOf r :: keysOf l := rfl

@[simp] theorem keysOf_append (l1 l2 : List BusRecord) :
    keysOf (l1 ++ l2) = keysOf l1 ++ keysOf l2 := by
  simp [keysOf]

theorem mass_eq_zero_of_not_mem {k : Key} {l : List BusRecord}
    (h : k ∉ keysOf l) : mass k l = 0 := by
  induction l with
  | nil => rfl
  | cons x xs ih =>
    simp only [keysOf_cons, List.mem_cons, not_or] at h
    rw [mass_cons, if_neg (fun he => h.1 he.symm), ih h.2]

/-- Every record in `btreeInsert r l` is either keyed like `r` or a member of `l`. -/
theorem mem_btreeInsert {r s : BusRecord} {l : List BusRecord}
    (h : s ∈ btreeInsert r l) : keyOf s = keyOf r ∨ s ∈ l := by
  induction l with
  | nil => simp only [btreeInsert, List.mem_singleton] at h; subst h; exact Or.inl rfl
  | cons x xs ih =>
    simp only [btreeInsert] at h
    split at h
    · rename_i hk
      rcases List.mem_cons.mp h with h | h
      · subst h; exact Or.inl hk.symm
      · exact Or.inr (List.mem_cons_of_mem _ h)
    · split at h
      · rcases List.mem_cons.mp h with h | h
        · subst h; exact Or.inl rfl
        · exact Or.inr h
      · rcases List.mem_cons.mp h with h | h
        · subst h; exact Or.inr (List.mem_cons_self _ _)
        · rcases ih h with h | h
          · exact Or.inl h
          · exact Or.inr (List.mem_cons_of_mem _ h)

theorem btreeInsert_pairwise {r : BusRecord} {l : List BusRecord}
    (h : l.Pairwise rLt) : (btreeInsert r l).Pairwise rLt := by
  induction l with
  | nil => simp [btreeInsert]
  | cons x xs ih =>
    rcases List.pairwise_cons.mp h with ⟨hx, hxs⟩
    simp only [btreeInsert]
    split
    · rename_i hk
      exact List.pairwise_cons.mpr ⟨fun y hy => hx y hy, hxs⟩
    · split
      · rename_i hk hlt
        refine List.pairwise_cons.mpr ⟨?_, h⟩
        intro y hy
        rcases List.mem_cons.mp hy with hy | hy
        · subst hy; exact hlt
        · exact keyLt_trans hlt (hx y hy)
      · rename_i hk hnlt
        have hxr : keyLt (keyOf x) (keyOf r) := by
          rcases keyLt_trichotomy (keyOf r) (keyOf x) with h1 | h1 | h1
          · exact absurd h1 hnlt
          · exact absurd h1 hk
          · exact h1
        refine List.pairwise_cons.mpr ⟨?_, ih hxs⟩
        intro y hy
        rcases mem_btreeInsert hy with hy | hy
        · unfold rLt; rw [hy]; exact hxr
        · exact hx y hy

theorem btreeInsert_mass (k : Key) (r : BusRecord) (l : List BusRecord) :
    mass k (btreeInsert r l) =
      mass k l + (if keyOf r = k then r.count else 0) := by
  induction l with
  | nil => simp [btreeInsert]
  | cons x xs ih =>
    simp only [btreeInsert]
    split
    · rename_i hk
      obtain ⟨xc, xu, xe, xn, xf⟩ := x
      simp only [mass_cons, keyOf] at hk ⊢
      simp only [hk]
      split_ifs <;> omega
    · split
      · simp only [mass_cons]; omega
      · simp only [mass_cons, ih]; omega

theorem btreeInsert_keys {k : Key} (r : BusRecord) (l : List BusRecord) :
    k ∈ keysOf (btreeInsert r l) ↔ k = keyOf r ∨ k ∈ keysOf l := by
  induction l with
  | nil => simp [btreeInsert, keysOf, eq_comm]
  | cons x xs ih =>
    simp only [btreeInsert]
    split
    · rename_i hk
      have hkey : keyOf ({ x with count := x.count + r.count } : BusRecord) = keyOf x := rfl
      simp only [keysOf_cons, hkey, List.mem_cons, hk]
      tauto
    · split
      · simp only [keysOf_cons, List.mem_cons]
      · simp only [keysOf_cons, List.mem_cons, ih]
        tauto

theorem foldl_btreeInsert_pairwise (l : List BusRecord) :
    ∀ acc : List BusRecord, acc.Pairwise rLt →
      (l.foldl (fun acc r => btreeInsert r acc) acc).Pairwise rLt := by
  induction l with
  | nil => intro acc h; exact h
  | cons x xs ih =>
    intro acc h
    exact ih (btreeInsert x acc) (btreeInsert_pairwise h)

theorem foldl_btreeInsert_mass (k : Key) (l : List BusRecord) :
    ∀ acc : List BusRecord,
      mass k (l.foldl (fun acc r => btreeInsert r acc) acc) =
        mass k acc + mass k l := by
  induction l with
  | nil => intro acc; simp
  | cons x xs ih =>
    intro acc
    rw [List.foldl_cons, ih, btreeInsert_mass, mass_cons]
    omega

theorem foldl_btreeInsert_keys (k : Key) (l : List BusRecord) :
    ∀ acc : List BusRecord,
      (k ∈ keysOf (l.foldl (fun acc r => btreeInsert r acc) acc) ↔
        k ∈ keysOf acc ∨ k ∈ keysOf l) := by
  induction l with
  | nil => intro acc; simp
  | cons x xs ih =>
    intro acc
    rw [List.foldl_cons, ih, btreeInsert_keys]
    simp only [keysOf_cons, List.mem_cons]
    tauto

theorem sort_into_btree_pairwise (l : List BusRecord) :
    (sort_into_btree l).Pairwise rLt :=
  foldl_btreeInsert_pairwise l [] List.Pairwise.nil

theorem sort_into_btree_mass (k : Key) (l : List BusRecord) :
    mass k (sort_into_btree l) = mass k l := by
  unfold sort_into_btree
  rw [foldl_btreeInsert_mass]
  simp

theorem sort_into_btree_keys (k : Key) (l : List BusRecord) :
    k ∈ keysOf (sort_into_btree l) ↔ k ∈ keysOf l := by
  unfold sort_into_btree
  rw [foldl_btreeInsert_keys]
  simp [keysOf]

/-- In a strictly key-sorted list the whole mass at a member's key sits on
that one member. -/
theorem mass_of_pairwise_mem {r : BusRecord} {l : List BusRecord}
    (hp : l.Pairwise rLt) (hm : r ∈ l) : mass (keyOf r) l = r.count := by
  induction l with
  | nil => cases hm
  | cons x xs ih =>
    rcases List.pairwise_cons.mp hp with ⟨hx, hxs⟩
    rcases List.mem_cons.mp hm with hm | hm
    · subst hm
      have hz : mass (keyOf r) xs = 0 := by
        apply mass_eq_zero_of_not_mem
        intro hk
        unfold keysOf at hk
        rcases List.mem_map.mp hk with ⟨s, hs, hks⟩
        have hlt := hx s hs
        unfold rLt at hlt
        rw [hks] at hlt
        exact keyLt_irrefl (keyOf r) hlt
      rw [mass_cons, if_pos rfl, hz]
      omega
    · have hne : keyOf x ≠ keyOf r := fun he => keyLt_ne (hx r hm) he
      rw [mass_cons, if_neg hne, ih hxs hm]
      omega

theorem keysOf_nodup_of_pairwise {l : List BusRecord}
    (hp : l.Pairwise rLt) : (keysOf l).Nodup := by
  unfold keysOf
  rw [List.nodup_iff_sublist]
  intro a hsub
  have hpk : (l.map keyOf).Pairwise keyLt := (List.pairwise_map).mpr hp
  have := hpk.sublist hsub
  rcases List.pairwise_cons.mp this with ⟨h, _⟩
  exact keyLt_irrefl a (h a (List.mem_singleton_self a))

/-- Inserting a record greater than everything in the map appends it. -/
theorem btreeInsert_last {r : BusRecord} : ∀ {acc : List BusRecord},
    (∀ x ∈ acc, rLt x r) → btreeInsert r acc = acc ++ [r] := by
  intro acc
  induction acc with
  | nil => intro _; rfl
  | cons x xs ih =>
    intro h
    have hxr : keyLt (keyOf x) (keyOf r) := h x (List.mem_cons_self _ _)
    simp only [btreeInsert]
    rw [if_neg (fun (he : keyOf r = keyOf x) => keyLt_irrefl (keyOf x) (he ▸ hxr)),
      if_neg (keyLt_asymm hxr),
      ih (fun y hy => h y (List.mem_cons_of_mem _ hy))]
    rfl

/-- Folding an already strictly sorted record list into a strictly smaller
map just appends it. -/
theorem foldl_btreeInsert_id : ∀ (l acc : List BusRecord),
    (acc ++ l).Pairwise rLt →
    l.foldl (fun acc r => btreeInsert r acc) acc = acc ++ l := by
  intro l
  induction l with
  | nil => intro acc _; simp
  | cons r rs ih =>
    intro acc hp
    have hlt : ∀ x ∈ acc, rLt x r := by
      rcases List.pairwise_append.mp hp with ⟨_, _, hcross⟩
      exact fun x hx => hcross x hx r (List.mem_cons_self _ _)
    rw [List.foldl_cons, btreeInsert_last hlt]
    have hp2 : ((acc ++ [r]) ++ rs).Pairwise rLt := by
      rw [List.append_assoc]
      exact hp
    rw [ih (acc ++ [r]) hp2, List.append_assoc]
    rfl

/-- The run builder fixes every strictly sorted list. -/
theorem sort_into_btree_of_pairwise {l : List BusRecord}
    (hp : l.Pairwise rLt) : sort_into_btree l = l := by
  unfold sort_into_btree
  rw [foldl_btreeInsert_id l [] (by simpa using hp)]
  rfl

/-- Two strictly key-sorted lists carrying the same keys and the same
per-key count mass are equal. -/
theorem sorted_ext : ∀ (l1 l2 : List BusRecord), l1.Pairwise rLt →
    l2.Pairwise rLt → (∀ k, k ∈ keysOf l1 ↔ k ∈ keysOf l2) →
    (∀ k, mass k l1 = mass k l2) → l1 = l2 := by
  intro l1
  induction l1 with
  | nil =>
    intro l2 _ _ hk _
    cases l2 with
    | nil => rfl
    | cons s t2 => exact absurd ((hk (keyOf s)).mpr (by simp)) (by simp)
  | cons r t1 ih =>
    intro l2 hp1 hp2 hk hm
    cases l2 with
    | nil => exact absurd ((hk (keyOf r)).mp (by simp)) (by simp)
    | cons s t2 =>
      rcases List.pairwise_cons.mp hp1 with ⟨hx1, ht1⟩
      rcases List.pairwise_cons.mp hp2 with ⟨hx2, ht2⟩
      have hnotin1 : keyOf r ∉ keysOf t1 := by
        intro hmem
        unfold keysOf at hmem
        rcases List.mem_map.mp hmem with ⟨u, hu, hku⟩
        have hlt := hx1 u hu
        unfold rLt at hlt
        rw [hku] at hlt
        exact keyLt_irrefl _ hlt
      have hnotin2 : keyOf s ∉ keysOf t2 := by
        intro hmem
        unfold keysOf at hmem
        rcases List.mem_map.mp hmem with ⟨u, hu, hku⟩
        have hlt := hx2 u hu
        unfold rLt at hlt
        rw [hku] at hlt
        exact keyLt_irrefl _ hlt
      have hks : keyOf r = keyOf s := by
        by_contra hne
        have h1 : keyOf r ∈ keysOf t2 := by
          have hin := (hk (keyOf r)).mp (by simp)
          simp only [keysOf_cons, List.mem_cons] at hin
          rcases hin with h | h
          · exact absurd h hne
          · exact h
        have h2 : keyOf s ∈ keysOf t1 := by
          have hin := (hk (keyOf s)).mpr (by simp)
          simp only [keysOf_cons, List.mem_cons] at hin
          rcases hin with h | h
          · exact absurd h.symm hne
          · exact h
        have hlt1 : keyLt (keyOf s) (keyOf r) := by
          unfold keysOf at h1
          rcases List.mem_map.mp h1 with ⟨u, hu, hku⟩
          have hlt := hx2 u hu
          unfold rLt at hlt
          rwa [hku] at hlt
        have hlt2 : keyLt (keyOf r) (keyOf s) := by
          unfold keysOf at h2
          rcases List.mem_map.mp h2 with ⟨u, hu, hku⟩
          have hlt := hx1 u hu
          unfold rLt at hlt
          rwa [hku] at hlt
        exact keyLt_asymm hlt1 hlt2
      have hcr : r.count = s.count := by
        have h1 : mass (keyOf r) (r :: t1) = r.count :=
          mass_of_pairwise_mem hp1 (List.mem_cons_self _ _)
        have h2 : mass (keyOf s) (s :: t2) = s.count :=
          mass_of_pairwise_mem hp2 (List.mem_cons_self _ _)
        have hmm := hm (keyOf r)
        rw [h1, hks, h2] at hmm
        exact hmm
      have hrs : r = s := record_ext hks hcr
      subst hrs
      have hteq : t1 = t2 := by
        apply ih t2 ht1 ht2
        · intro k
          constructor
          · intro hk1
            have hkne : k ≠ keyOf r := fun he => hnotin1 (he ▸ hk1)
            have hin := (hk k).mp (by simp [hk1])
            simp only [keysOf_cons, List.mem_cons] at hin
            rcases hin with h | h
            · exact absurd h hkne
            · exact h
          · intro hk2
            have hkne : k ≠ keyOf r := fun he => hnotin2 (he ▸ hk2)
            have hin := (hk k).mpr (by simp [hk2])
            simp only [keysOf_cons, List.mem_cons] at hin
            rcases hin with h | h
            · exact absurd h hkne
            · exact h
        · intro k
          have hmm := hm k
          simp only [mass_cons] at hmm
          exact Nat.add_left_cancel hmm
      rw [hteq]

/-- C3: `sort_into_btree` outputs an ascending-key sequence with at most
one record per distinct key (its key list has no duplicates and adjacent
records strictly increase), over exactly the keys of the input; each
output record's count is the summed count of the input records with its
key. -/
theorem claimC3_run_builder (l : List BusRecord) :
    (sort_into_btree l).Pairwise rLt ∧
    (keysOf (sort_into_btree l)).Nodup ∧
    (∀ k, k ∈ keysOf (sort_into_btree l) ↔ k ∈ keysOf l) ∧
    (∀ r, r ∈ sort_into_btree l → r.count = mass (keyOf r) l) := by
  refine ⟨sort_into_btree_pairwise l,
    keysOf_nodup_of_pairwise (sort_into_btree_pairwise l),
    fun k => sort_into_btree_keys k l, fun r hr => ?_⟩
  have h := mass_of_pairwise_mem (sort_into_btree_pairwise l) hr
  rw [sort_into_btree_mass] at h
  exact h.symm

/-- C3 witness: three copies of one record aggregate to a single record
whose count is the input's total mass at that key. -/
theorem claimC3_run_builder_witness :
    (⟨0, 0, 0, 3, 0⟩ : BusRecord).count =
      mass (keyOf ⟨0, 0, 0, 3, 0⟩) [⟨0, 0, 0, 1, 0⟩, ⟨0, 0, 0, 1, 0⟩, ⟨0, 0, 0, 1, 0⟩] :=
  (claimC3_run_builder [⟨0, 0, 0, 1, 0⟩, ⟨0, 0, 0, 1, 0⟩, ⟨0, 0, 0, 1, 0⟩]).2.2.2
    ⟨0, 0, 0, 3, 0⟩ (by decide)

/-- C9: the run builder is idempotent — on any of its own outputs (which
are exactly the sorted, key-aggregated sequences) it is the identity. -/
theorem claimC9_run_builder_idempotent (l : List BusRecord) :
    sort_into_btree (sort_into_btree l) = sort_into_btree l :=
  sort_into_btree_of_pairwise (sort_into_btree_pairwise l)

theorem cLt_irrefl (a : Nat × Nat) : ¬ cLt a a := by
  obtain ⟨a1, a2⟩ := a
  simp only [cLt]
  omega

theorem cLt_trans {a b c : Nat × Nat} (h1 : cLt a b) (h2 : cLt b c) : cLt a c := by
  obtain ⟨a1, a2⟩ := a
  obtain ⟨b1, b2⟩ := b
  obtain ⟨c1, c2⟩ := c
  simp only [cLt] at *
  omega

theorem cLt_trichotomy (a b : Nat × Nat) : cLt a b ∨ a = b ∨ cLt b a := by
  obtain ⟨a1, a2⟩ := a
  obtain ⟨b1, b2⟩ := b
  simp only [cLt, Prod.mk.injEq]
  omega

/-- A strictly smaller coarse key forces a strictly smaller full key. -/
theorem rLt_of_cLt {a b : BusRecord} (h : cLt (cbumiOf a) (cbumiOf b)) : rLt a b := by
  obtain ⟨ac, au, ae, an, af⟩ := a
  obtain ⟨bc, bu, be, bn, bf⟩ := b
  simp only [cbumiOf, cLt] at h
  simp only [rLt, keyOf, keyLt]
  omega

theorem mem_insertCbumi {a k : Nat × Nat} : ∀ {l : List (Nat × Nat)},
    a ∈ insertCbumi k l ↔ a = k ∨ a ∈ l := by
  intro l
  induction l with
  | nil => simp [insertCbumi]
  | cons x xs ih =>
    simp only [insertCbumi]
    split
    · rename_i he
      subst he
      simp only [List.mem_cons]
      tauto
    · split
      · simp only [List.mem_cons]
      · simp only [List.mem_cons, ih]
        tauto

theorem insertCbumi_pairwise {k : Nat × Nat} : ∀ {l : List (Nat × Nat)},
    l.Pairwise cLt → (insertCbumi k l).Pairwise cLt := by
  intro l
  induction l with
  | nil => simp [insertCbumi]
  | cons x xs ih =>
    intro h
    rcases List.pairwise_cons.mp h with ⟨hx, hxs⟩
    simp only [insertCbumi]
    split
    · exact h
    · split
      · rename_i hne hlt
        refine List.pairwise_cons.mpr ⟨?_, h⟩
        intro y hy
        rcases List.mem_cons.mp hy with hy | hy
        · subst hy; exact hlt
        · exact cLt_trans hlt (hx y hy)
      · rename_i hne hnlt
        have hxk : cLt x k := by
          rcases cLt_trichotomy k x with h1 | h1 | h1
          · exact absurd h1 hnlt
          · exact absurd h1 hne
          · exact h1
        refine List.pairwise_cons.mpr ⟨?_, ih hxs⟩
        intro y hy
        rcases mem_insertCbumi.mp hy with hy | hy
        · subst hy; exact hxk
        · exact hx y hy

theorem sortedCbumis_pairwise (l : List (Nat × Nat)) :
    (sortedCbumis l).Pairwise cLt := by
  suffices h : ∀ acc : List (Nat × Nat), acc.Pairwise cLt →
      (l.foldl (fun acc k => insertCbumi k acc) acc).Pairwise cLt from
    h [] List.Pairwise.nil
  induction l with
  | nil => intro acc h; exact h
  | cons x xs ih => intro acc h; exact ih _ (insertCbumi_pairwise h)

theorem mem_sortedCbumis {a : Nat × Nat} {l : List (Nat × Nat)} :
    a ∈ sortedCbumis l ↔ a ∈ l := by
  suffices h : ∀ acc : List (Nat × Nat),
      (a ∈ l.foldl (fun acc k => insertCbumi k acc) acc ↔ a ∈ acc ∨ a ∈ l) by
    have := h []
    simpa [sortedCbumis] using this
  induction l with
  | nil => intro acc; simp
  | cons x xs ih =>
    intro acc
    rw [List.foldl_cons, ih, mem_insertCbumi]
    simp only [List.mem_cons]
    tauto

theorem mem_groupOf {r : BusRecord} {c : Nat × Nat} {src : List BusRecord} :
    r ∈ groupOf c src ↔ r ∈ src ∧ cbumiOf r = c := by
  simp [groupOf, List.mem_filter]

/-- The coarse key of a record is the coarse part of its full key. -/
theorem cbumiOf_eq_coarse (r : BusRecord) : cbumiOf r = coarseOfKey (keyOf r) := rfl

theorem mass_groupOf (k : Key) (c : Nat × Nat) : ∀ all : List BusRecord,
    mass k (groupOf c all) = if coarseOfKey k = c then mass k all else 0 := by
  intro all
  induction all with
  | nil => simp [groupOf]
  | cons r rs ih =>
    simp only [groupOf, List.filter_cons] at *
    by_cases hc : cbumiOf r = c
    · rw [if_pos (by simpa using hc), mass_cons, ih, mass_cons]
      by_cases hk : keyOf r = k
      · have hck : coarseOfKey k = c := by
          rw [← hk, ← cbumiOf_eq_coarse]; exact hc
        simp [hk, hck]
      · simp [hk]
    · rw [if_neg (by simpa using hc), ih, mass_cons]
      by_cases hk : keyOf r = k
      · have hcc : ¬ coarseOfKey k = c := by
          rw [← hk, ← cbumiOf_eq_coarse]; exact hc
        simp [hk, hcc]
      · simp [hk]

theorem keys_groupOf {k : Key} {c : Nat × Nat} {all : List BusRecord} :
    k ∈ keysOf (groupOf c all) ↔ k ∈ keysOf all ∧ coarseOfKey k = c := by
  unfold keysOf
  simp only [List.mem_map]
  constructor
  · rintro ⟨r, hr, hk⟩
    rcases mem_groupOf.mp hr with ⟨hr2, hc⟩
    exact ⟨⟨r, hr2, hk⟩, by rw [← hk, ← cbumiOf_eq_coarse]; exact hc⟩
  · rintro ⟨⟨r, hr, hk⟩, hc⟩
    exact ⟨r, mem_groupOf.mpr ⟨hr, by rw [cbumiOf_eq_coarse, hk]; exact hc⟩, hk⟩

/-- The merge phase re-aggregates, coarse key by coarse key, exactly the
records of all sources with that coarse key. -/
theorem mergedOutput_eq (sources : List (List BusRecord)) :
    mergedOutput sources =
      ((sortedCbumis (sources.flatten.map cbumiOf)).map
        (fun c => sort_into_btree (groupOf c sources.flatten))).flatten := by
  unfold mergedOutput multiIteratorGroups merge_chunks
  rw [List.map_map]
  congr 1
  apply List.map_congr_left
  intro c _
  show sort_into_btree _ = sort_into_btree (groupOf c sources.flatten)
  congr 1
  rw [List.flatten_filter_not_isEmpty]
  simp [groupOf, List.filter_flatten]

theorem perKey_mass (k : Key) (all : List BusRecord) :
    ∀ cs : List (Nat × Nat), cs.Pairwise cLt →
    mass k ((cs.map (fun c => sort_into_btree (groupOf c all))).flatten) =
      if coarseOfKey k ∈ cs then mass k all else 0 := by
  intro cs
  induction cs with
  | nil => intro _; simp
  | cons c cs ih =>
    intro hp
    rcases List.pairwise_cons.mp hp with ⟨hc, hcs⟩
    rw [List.map_cons, List.flatten_cons, mass_append, sort_into_btree_mass,
      mass_groupOf, ih hcs]
    by_cases h1 : coarseOfKey k = c
    · subst h1
      have h2 : coarseOfKey k ∉ cs := fun hm => cLt_irrefl _ (hc _ hm)
      simp [h2]
    · simp [h1, List.mem_cons]

theorem perKey_keys (k : Key) (all : List BusRecord) :
    ∀ cs : List (Nat × Nat),
    (k ∈ keysOf ((cs.map (fun c => sort_into_btree (groupOf c all))).flatten) ↔
      coarseOfKey k ∈ cs ∧ k ∈ keysOf all) := by
  intro cs
  induction cs with
  | nil => simp
  | cons c cs ih =>
    simp only [List.map_cons, List.flatten_cons, keysOf_append, List.mem_append,
      sort_into_btree_keys, keys_groupOf, ih, List.mem_cons]
    tauto

theorem perKey_pairwise (all : List BusRecord) :
    ∀ cs : List (Nat × Nat), cs.Pairwise cLt →
    ((cs.map (fun c => sort_into_btree (groupOf c all))).flatten).Pairwise rLt := by
  intro cs
  induction cs with
  | nil => intro _; simp
  | cons c cs ih =>
    intro hp
    rcases List.pairwise_cons.mp hp with ⟨hc, hcs⟩
    rw [List.map_cons, List.flatten_cons, List.pairwise_append]
    refine ⟨sort_into_btree_pairwise _, ih hcs, ?_⟩
    intro a ha b hb
    have ha2 : cbumiOf a = c := by
      have hk : keyOf a ∈ keysOf (sort_into_btree (groupOf c all)) := by
        unfold keysOf
        exact List.mem_map_of_mem keyOf ha
      rw [sort_into_btree_keys] at hk
      rcases keys_groupOf.mp hk with ⟨_, hcc⟩
      rw [cbumiOf_eq_coarse]
      exact hcc
    have hb2 : cbumiOf b ∈ cs := by
      rcases List.mem_flatten.mp hb with ⟨blk, hblk, hbblk⟩
      rcases List.mem_map.mp hblk with ⟨c2, hc2, hblk2⟩
      subst hblk2
      have hk : keyOf b ∈ keysOf (sort_into_btree (groupOf c2 all)) := by
        unfold keysOf
        exact List.mem_map_of_mem keyOf hbblk
      rw [sort_into_btree_keys] at hk
      rcases keys_groupOf.mp hk with ⟨_, hcc⟩
      rw [cbumiOf_eq_coarse, hcc]
      exact hc2
    exact rLt_of_cLt (by rw [ha2]; exact hc _ hb2)

theorem mergedOutput_pairwise (sources : List (List BusRecord)) :
    (mergedOutput sources).Pairwise rLt := by
  rw [mergedOutput_eq]
  exact perKey_pairwise _ _ (sortedCbumis_pairwise _)

theorem mergedOutput_mass (k : Key) (sources : List (List BusRecord)) :
    mass k (mergedOutput sources) = mass k sources.flatten := by
  rw [mergedOutput_eq, perKey_mass k _ _ (sortedCbumis_pairwise _)]
  by_cases h : coarseOfKey k ∈ sortedCbumis (sources.flatten.map cbumiOf)
  · rw [if_pos h]
  · rw [if_neg h]
    symm
    apply mass_eq_zero_of_not_mem
    intro hk
    unfold keysOf at hk
    rcases List.mem_map.mp hk with ⟨r, hr, hkr⟩
    apply h
    rw [mem_sortedCbumis]
    have hmem := List.mem_map_of_mem cbumiOf hr
    rw [cbumiOf_eq_coarse, hkr] at hmem
    exact hmem

theorem mergedOutput_keys (k : Key) (sources : List (List BusRecord)) :
    k ∈ keysOf (mergedOutput sources) ↔ k ∈ keysOf sources.flatten := by
  rw [mergedOutput_eq, perKey_keys]
  constructor
  · rintro ⟨_, h⟩
    exact h
  · intro h
    refine ⟨?_, h⟩
    unfold keysOf at h
    rcases List.mem_map.mp h with ⟨r, hr, hkr⟩
    rw [mem_sortedCbumis]
    have hmem := List.mem_map_of_mem cbumiOf hr
    rw [cbumiOf_eq_coarse, hkr] at hmem
    exact hmem

theorem keys_flatten_sorts (k : Key) (chunks : List (List BusRecord)) :
    k ∈ keysOf ((chunks.map sort_into_btree).flatten) ↔ k ∈ keysOf chunks.flatten := by
  induction chunks with
  | nil => simp
  | cons c cs ih =>
    simp only [List.map_cons, List.flatten_cons, keysOf_append, List.mem_append,
      ih, sort_into_btree_keys]

theorem mass_flatten_sorts (k : Key) (chunks : List (List BusRecord)) :
    mass k ((chunks.map sort_into_btree).flatten) = mass k chunks.flatten := by
  induction chunks with
  | nil => rfl
  | cons c cs ih =>
    simp only [List.map_cons, List.flatten_cons, mass_append, ih, sort_into_btree_mass]

theorem chunksOf_flatten {n : Nat} (hn : 0 < n) :
    ∀ l : List BusRecord, (chunksOf n l).flatten = l := by
  suffices h : ∀ (m : Nat) (l : List BusRecord), l.length ≤ m →
      (chunksOf n l).flatten = l from fun l => h l.length l le_rfl
  intro m
  induction m with
  | zero =>
    intro l hl
    have : l = [] := List.length_eq_zero.mp (Nat.le_zero.mp hl)
    subst this
    simp [chunksOf]
  | succ m ih =>
    intro l hl
    cases l with
    | nil => simp [chunksOf]
    | cons x xs =>
      rw [chunksOf]
      rw [dif_neg (by omega : ¬ n = 0)]
      rw [List.flatten_cons,
        ih _ (by simp only [List.length_drop, List.length_cons]; simp at hl; omega)]
      exact List.take_append_drop n (x :: xs)

/-- The whole external sort, over any chunk partition, coincides with one
run-builder pass over the concatenated input. -/
theorem external_sort_eq (chunks : List (List BusRecord)) :
    external_sort chunks = sort_into_btree chunks.flatten := by
  apply sorted_ext
  · unfold external_sort
    exact mergedOutput_pairwise _
  · exact sort_into_btree_pairwise _
  · intro k
    unfold external_sort
    rw [mergedOutput_keys, sort_into_btree_keys, keys_flatten_sorts]
  · intro k
    unfold external_sort
    rw [mergedOutput_mass, sort_into_btree_mass, mass_flatten_sorts]

/-- C1: for any partition of the records into consecutive chunks — in
particular the `chunksize`-batching of `sort_on_disk` — the external sort
(per-chunk run building, synchronized merge, per-group `merge_chunks`
re-aggregation) yields the same multiset of records as one run-builder
pass over the whole input. -/
theorem claimC1_external_sort_equiv :
    (∀ chunks : List (List BusRecord),
      (external_sort chunks).Perm (sort_into_btree chunks.flatten)) ∧
    (∀ (chunksize : Nat) (input : List BusRecord), 0 < chunksize →
      (sort_on_disk chunksize input).Perm (sort_into_btree input)) := by
  constructor
  · intro chunks
    rw [external_sort_eq]
  · intro n input hn
    unfold sort_on_disk
    rw [external_sort_eq, chunksOf_flatten hn]

/-- C1 witness: chunk size 2 on a 3-record input with a split key. -/
theorem claimC1_external_sort_equiv_witness :
    0 < 2 ∧ (sort_on_disk 2 [⟨1, 0, 0, 1, 0⟩, ⟨0, 0, 0, 1, 0⟩, ⟨1, 0, 0, 2, 0⟩]).Perm
      (sort_into_btree [⟨1, 0, 0, 1, 0⟩, ⟨0, 0, 0, 1, 0⟩, ⟨1, 0, 0, 2, 0⟩]) :=
  ⟨by decide, claimC1_external_sort_equiv.2 2 _ (by decide)⟩

/-- C2: every `sort_on_disk` output is strictly ascending by the full
`(cb, umi, ec, flag)` key between adjacent records, and no two emitted
records share a full key. -/
theorem claimC2_output_sorted (chunksize : Nat) (input : List BusRecord) :
    (sort_on_disk chunksize input).Pairwise rLt ∧
    (keysOf (sort_on_disk chunksize input)).Nodup := by
  have hp : (sort_on_disk chunksize input).Pairwise rLt := by
    unfold sort_on_disk external_sort
    exact mergedOutput_pairwise _
  exact ⟨hp, keysOf_nodup_of_pairwise hp⟩

/-- Filtering an ascending per-coarse-key concatenation down to one
coarse key keeps exactly that key's block. -/
theorem flatten_groupOf_filter (c : Nat × Nat) (recs : List BusRecord) :
    ∀ cs : List (Nat × Nat), cs.Pairwise cLt →
    ((cs.map (fun c2 => groupOf c2 recs)).flatten.filter
        (fun r => decide (cbumiOf r = c))) =
      if c ∈ cs then groupOf c recs else [] := by
  intro cs
  induction cs with
  | nil => intro _; simp
  | cons c2 cs ih =>
    intro hp
    rcases List.pairwise_cons.mp hp with ⟨hc2, hcs⟩
    rw [List.map_cons, List.flatten_cons, List.filter_append, ih hcs]
    have hhead : (groupOf c2 recs).filter (fun r => decide (cbumiOf r = c)) =
        if c = c2 then groupOf c recs else [] := by
      by_cases he : c = c2
      · subst he
        rw [if_pos rfl]
        unfold groupOf
        rw [List.filter_filter]
        apply List.filter_congr
        intro r _
        by_cases hr : cbumiOf r = c <;> simp [hr]
      · rw [if_neg he, List.filter_eq_nil_iff]
        intro r hr
        rcases mem_groupOf.mp hr with ⟨_, hc⟩
        simp only [hc, decide_eq_true_eq]
        exact fun hcc => he hcc.symm
    rw [hhead]
    by_cases he : c = c2
    · subst he
      have hnot : c ∉ cs := fun hm => cLt_irrefl _ (hc2 _ hm)
      simp [hnot]
    · simp [he, List.mem_cons]

/-- C6: in the two-source overlap extraction, the records of a coarse
`(cb, umi)` key appear in an output exactly when both sources have the
key, and then the output holds that source's own records for the key;
keys present in only one source reach neither output. -/
theorem claimC6_overlap_extraction (f1 f2 : BusFile) (c : Nat × Nat) :
    ((merge_busfiles_on_overlap f1 f2).1.records.filter
        (fun r => decide (cbumiOf r = c)) =
      if c ∈ f1.records.map cbumiOf ∧ c ∈ f2.records.map cbumiOf
      then groupOf c f1.records else []) ∧
    ((merge_busfiles_on_overlap f1 f2).2.records.filter
        (fun r => decide (cbumiOf r = c)) =
      if c ∈ f1.records.map cbumiOf ∧ c ∈ f2.records.map cbumiOf
      then groupOf c f2.records else []) := by
  have hpair : ((sortedCbumis ((f1.records ++ f2.records).map cbumiOf)).filter
      (fun c2 => decide (c2 ∈ f1.records.map cbumiOf) &&
        decide (c2 ∈ f2.records.map cbumiOf))).Pairwise cLt :=
    (sortedCbumis_pairwise _).filter _
  have hmem : (c ∈ (sortedCbumis ((f1.records ++ f2.records).map cbumiOf)).filter
      (fun c2 => decide (c2 ∈ f1.records.map cbumiOf) &&
        decide (c2 ∈ f2.records.map cbumiOf))) ↔
      (c ∈ f1.records.map cbumiOf ∧ c ∈ f2.records.map cbumiOf) := by
    rw [List.mem_filter, mem_sortedCbumis]
    simp only [Bool.and_eq_true, decide_eq_true_eq, List.map_append, List.mem_append]
    tauto
  refine ⟨?_, ?_⟩ <;>
    (dsimp only [merge_busfiles_on_overlap];
     rw [flatten_groupOf_filter _ _ _ hpair];
     exact if_congr hmem rfl rfl)

/-- C10: both outputs of `merge_busfiles_on_overlap` carry the hardcoded
header `cb_len = 16`, `umi_len = 12`, and the whole result is unchanged
under any change of the input headers — they are never consulted. -/
theorem claimC10_hardcoded_header (p1 p2 : BusParams) (rs1 rs2 : List BusRecord) :
    (merge_busfiles_on_overlap ⟨p1, rs1⟩ ⟨p2, rs2⟩).1.params = ⟨16, 12⟩ ∧
    (merge_busfiles_on_overlap ⟨p1, rs1⟩ ⟨p2, rs2⟩).2.params = ⟨16, 12⟩ ∧
    merge_busfiles_on_overlap ⟨p1, rs1⟩ ⟨p2, rs2⟩ =
      merge_busfiles_on_overlap ⟨⟨16, 12⟩, rs1⟩ ⟨⟨16, 12⟩, rs2⟩ :=
  ⟨rfl, rfl, rfl⟩

/-- C7 counterexample: `merge_busfiles_on_overlap` on two inputs whose
bit-width headers differ does not fail — it processes the records and
writes both outputs, refuting the claim that every multi-source merge
detects a schema mismatch eagerly. -/
theorem claimC7_counterexample :
    (⟨⟨16, 12⟩, [⟨0, 0, 0, 1, 0⟩]⟩ : BusFile).params ≠
      (⟨⟨14, 10⟩, [⟨0, 0, 1, 1, 0⟩]⟩ : BusFile).params ∧
    (merge_busfiles_on_overlap ⟨⟨16, 12⟩, [⟨0, 0, 0, 1, 0⟩]⟩
        ⟨⟨14, 10⟩, [⟨0, 0, 1, 1, 0⟩]⟩).1.records = [⟨0, 0, 0, 1, 0⟩] ∧
    (merge_busfiles_on_overlap ⟨⟨16, 12⟩, [⟨0, 0, 0, 1, 0⟩]⟩
        ⟨⟨14, 10⟩, [⟨0, 0, 1, 1, 0⟩]⟩).2.records = [⟨0, 0, 1, 1, 0⟩] := by
  decide

/-- C7 (amended): `concat_bus` checks all headers against the first
input's before any merging and aborts on a mismatch, producing no
output; `merge_busfiles_on_overlap` performs no such check. -/
theorem claimC7_concat_eager_check (f : BusFile) (fs : List BusFile)
    (h : ∃ g ∈ fs, g.params ≠ f.params) :
    concat_bus (f :: fs) = .error "missmatched Header parameters in busfiles" ∧
    ∀ out, concat_bus (f :: fs) ≠ .ok out := by
  have herr : concat_bus (f :: fs) =
      .error "missmatched Header parameters in busfiles" := by
    simp only [concat_bus]
    rw [if_neg]
    intro hall
    rcases h with ⟨g, hg, hne⟩
    have hp := List.all_eq_true.mp hall g hg
    exact hne (of_decide_eq_true hp)
  exact ⟨herr, fun out hok => by rw [herr] at hok; exact Except.noConfusion hok⟩

/-- C7 witness: two header-mismatched inputs make `concat_bus` abort. -/
theorem claimC7_concat_eager_check_witness :
    (∃ g ∈ [(⟨⟨14, 12⟩, []⟩ : BusFile)],
      g.params ≠ (⟨⟨16, 12⟩, ([] : List BusRecord)⟩ : BusFile).params) ∧
    concat_bus [⟨⟨16, 12⟩, []⟩, ⟨⟨14, 12⟩, []⟩] =
      .error "missmatched Header parameters in busfiles" :=
  ⟨by decide, (claimC7_concat_eager_check ⟨⟨16, 12⟩, []⟩ [⟨⟨14, 12⟩, []⟩] (by decide)).1⟩

/-- C8: in the record-level correction pass, a record whose `cb` is in
the correction map is replaced by exactly one output record with the
corrected `cb` and unchanged `umi`, `ec`, `count`, `flag`; a record
whose `cb` is absent contributes nothing. -/
theorem claimC8_record_correction (m : List (Nat × Nat))
    (pre post : List BusRecord) (r : BusRecord) :
    correct_records m (pre ++ r :: post) =
      correct_records m pre ++ (fix_record r m).toList ++ correct_records m post ∧
    (∀ c, m.lookup r.cb = some c →
      fix_record r m = some ⟨c, r.umi, r.ec, r.count, r.flag⟩) ∧
    (m.lookup r.cb = none → fix_record r m = none) := by
  refine ⟨?_, ?_, ?_⟩
  · unfold correct_records
    rw [List.filterMap_append, List.append_assoc]
    congr 1
    cases h : fix_record r m with
    | none => simp [List.filterMap_cons, h]
    | some s => simp [List.filterMap_cons, h]
  · obtain ⟨rc, ru, re, rn, rf⟩ := r
    intro c hc
    unfold fix_record
    rw [hc]
  · intro hn
    unfold fix_record
    rw [hn]

/-- C8 witness: a mapped barcode is rewritten in place. -/
theorem claimC8_record_correction_witness :
    List.lookup (5 : Nat) [((5 : Nat), (7 : Nat))] = some 7 ∧
    fix_record ⟨5, 1, 2, 3, 4⟩ [(5, 7)] = some ⟨7, 1, 2, 3, 4⟩ :=
  ⟨rfl, (claimC8_record_correction [(5, 7)] [] [] ⟨5, 1, 2, 3, 4⟩).2.1 7 rfl⟩

theorem my_hamming_self (a : List Char) : my_hamming a a = 0 := by
  induction a with
  | nil => rfl
  | cons x xs ih =>
    unfold my_hamming at ih ⊢
    rw [List.zip_cons_cons, List.filter_cons_of_neg (by simp)]
    exact ih

theorem eq_of_hamming_zero : ∀ {a b : List Char}, a.length = b.length →
    my_hamming a b = 0 → a = b := by
  intro a
  induction a with
  | nil =>
    intro b hl _
    cases b with
    | nil => rfl
    | cons y ys => simp at hl
  | cons x xs ih =>
    intro b hl h0
    cases b with
    | nil => simp at hl
    | cons y ys =>
      unfold my_hamming at h0
      rw [List.zip_cons_cons, List.filter_cons] at h0
      by_cases hxy : x = y
      · subst hxy
        rw [if_neg (by simp)] at h0
        have hr := ih (by simpa using hl) h0
        rw [hr]
      · rw [if_pos (by simp [hxy])] at h0
        simp at h0

theorem mem_bkFind {q : List Char} {d : Nat} {bk : List (List Char)}
    {p : List Char × Nat} :
    p ∈ bkFind bk q d ↔ p.1 ∈ bk ∧ my_hamming q p.1 = p.2 ∧ p.2 ≤ d := by
  unfold bkFind
  rw [List.mem_filterMap]
  constructor
  · rintro ⟨w, hw, hf⟩
    by_cases hle : my_hamming q w ≤ d
    · rw [if_pos hle] at hf
      have hp := Option.some.inj hf
      subst hp
      exact ⟨hw, rfl, hle⟩
    · rw [if_neg hle] at hf
      exact Option.noConfusion hf
  · rintro ⟨h1, h2, h3⟩
    refine ⟨p.1, h1, ?_⟩
    rw [h2, if_pos h3]

/-- The distance-0 filter of the query result is the whitelist filter at
hamming distance 0. -/
theorem perfect_eq (q : List Char) : ∀ bk : List (List Char),
    (bkFind bk q MAX_DIST).filterMap
        (fun p => if p.2 = 0 then some p.1 else none) =
      bk.filter (fun w => decide (my_hamming q w = 0)) := by
  intro bk
  induction bk with
  | nil => rfl
  | cons w ws ih =>
    have hbk : bkFind (w :: ws) q MAX_DIST =
        (if my_hamming q w ≤ MAX_DIST
          then (w, my_hamming q w) :: bkFind ws q MAX_DIST
          else bkFind ws q MAX_DIST) := by
      unfold bkFind
      rw [List.filterMap_cons]
      by_cases hle : my_hamming q w ≤ MAX_DIST
      · rw [if_pos hle, if_pos hle]
      · rw [if_neg hle, if_neg hle]
    rw [hbk]
    by_cases hle : my_hamming q w ≤ MAX_DIST
    · rw [if_pos hle]
      by_cases h0 : my_hamming q w = 0
      · rw [List.filterMap_cons_some (show _ = some w by simp [h0]),
          List.filter_cons_of_pos (by simp [h0]), ih]
      · rw [List.filterMap_cons_none (by simp [h0]),
          List.filter_cons_of_neg (by simp [h0]), ih]
    · have h0 : ¬ my_hamming q w = 0 := by
        unfold MAX_DIST at hle
        omega
      rw [if_neg hle, ih, List.filter_cons_of_neg (by simp [h0])]

theorem filter_eq_singleton_of_nodup {a : List Char} :
    ∀ {l : List (List Char)}, l.Nodup → a ∈ l →
    l.filter (fun x => decide (x = a)) = [a] := by
  intro l
  induction l with
  | nil => intro _ h; cases h
  | cons x xs ih =>
    intro hnd hmem
    rcases List.nodup_cons.mp hnd with ⟨hx, hxs⟩
    rcases List.mem_cons.mp hmem with h | h
    · subst h
      rw [List.filter_cons_of_pos (by simp)]
      have htail : xs.filter (fun x => decide (x = a)) = [] := by
        rw [List.filter_eq_nil_iff]
        intro y hy
        simp only [decide_eq_true_eq]
        exact fun he => hx (he ▸ hy)
      rw [htail]
    · have hne : x ≠ a := fun he => hx (he ▸ h)
      rw [List.filter_cons_of_neg (by simp [hne])]
      exact ih hxs h

/-- C4: a barcode that occurs verbatim in a (duplicate-free, equal-length)
whitelist is always corrected to itself, even when further whitelist
entries lie within the distance bound. -/
theorem claimC4_exact_whitelist_hit (wl : List (List Char)) (cb : List Char)
    (hnd : wl.Nodup) (hlen : ∀ w ∈ wl, w.length = cb.length) (hmem : cb ∈ wl) :
    correct_single_cb cb wl = .SingleHit cb := by
  have hcbmem : ((cb, 0) : List Char × Nat) ∈ bkFind wl cb MAX_DIST :=
    mem_bkFind.mpr ⟨hmem, my_hamming_self cb, Nat.zero_le _⟩
  have hperf : (bkFind wl cb MAX_DIST).filterMap
      (fun p => if p.2 = 0 then some p.1 else none) = [cb] := by
    rw [perfect_eq]
    have hfc : wl.filter (fun w => decide (my_hamming cb w = 0)) =
        wl.filter (fun x => decide (x = cb)) := by
      apply List.filter_congr
      intro w hw
      by_cases he : w = cb
      · subst he
        simp [my_hamming_self]
      · have hnz : my_hamming cb w ≠ 0 := fun hz =>
          he (eq_of_hamming_zero (hlen w hw).symm hz).symm
        simp [he, hnz]
    rw [hfc, filter_eq_singleton_of_nodup hnd hmem]
  rcases hM : bkFind wl cb MAX_DIST with _ | ⟨⟨w1, d1⟩, M2⟩
  · rw [hM] at hcbmem
    cases hcbmem
  · cases M2 with
    | nil =>
      rw [hM] at hcbmem
      have heq : ((cb, 0) : List Char × Nat) = (w1, d1) := by simpa using hcbmem
      cases heq
      unfold correct_single_cb
      rw [hM]
    | cons p2 M3 =>
      rw [hM] at hperf
      unfold correct_single_cb
      rw [hM]
      simp only [hperf]

/-- C4 witness: "AAAA" with whitelist {AAAA, AAAB}: the exact match wins
over the neighbour within distance 1. -/
theorem claimC4_exact_whitelist_hit_witness :
    ([[ 'A', 'A', 'A', 'A'], ['A', 'A', 'A', 'B']] : List (List Char)).Nodup ∧
    (['A', 'A', 'A', 'A'] : List Char) ∈ [['A', 'A', 'A', 'A'], ['A', 'A', 'A', 'B']] ∧
    correct_single_cb ['A', 'A', 'A', 'A'] [['A', 'A', 'A', 'A'], ['A', 'A', 'A', 'B']] =
      .SingleHit ['A', 'A', 'A', 'A'] :=
  ⟨by decide, by decide,
    claimC4_exact_whitelist_hit _ _ (by decide) (by decide) (by decide)⟩

/-- C5: with two or more whitelist entries within the distance bound,
`correct_single_cb` yields the unique distance-0 hit as a `SingleHit`
when exactly one exists, and otherwise (zero or several exact hits, the
latter from a whitelist with duplicates) yields `Ambigous` over all
matched entries — which are exactly the whitelist entries within
`MAX_DIST` of the query. -/
theorem claimC5_multi_match (wl : List (List Char)) (cb : List Char)
    (_hlen : ∀ w ∈ wl, w.length = cb.length)
    (h2 : 2 ≤ (bkFind wl cb MAX_DIST).length) :
    (∀ e, wl.filter (fun w => decide (my_hamming cb w = 0)) = [e] →
      correct_single_cb cb wl = .SingleHit e) ∧
    ((wl.filter (fun w => decide (my_hamming cb w = 0))).length ≠ 1 →
      correct_single_cb cb wl = .Ambigous ((bkFind wl cb MAX_DIST).map Prod.fst)) ∧
    (∀ w, w ∈ (bkFind wl cb MAX_DIST).map Prod.fst ↔
      w ∈ wl ∧ my_hamming cb w ≤ MAX_DIST) := by
  have hconj3 : ∀ w, w ∈ (bkFind wl cb MAX_DIST).map Prod.fst ↔
      w ∈ wl ∧ my_hamming cb w ≤ MAX_DIST := by
    intro w
    simp only [List.mem_map]
    constructor
    · rintro ⟨p, hp, hw⟩
      rcases mem_bkFind.mp hp with ⟨h1, h2b, h3⟩
      subst hw
      exact ⟨h1, by rw [h2b]; exact h3⟩
    · rintro ⟨h1, h2b⟩
      exact ⟨(w, my_hamming cb w), mem_bkFind.mpr ⟨h1, rfl, h2b⟩, rfl⟩
  have hE := perfect_eq cb wl
  rcases hM : bkFind wl cb MAX_DIST with _ | ⟨x, M2⟩
  · rw [hM] at h2
    simp at h2
  · cases M2 with
    | nil =>
      rw [hM] at h2
      simp at h2
    | cons y t =>
      rw [hM] at hE hconj3
      refine ⟨?_, ?_, hconj3⟩
      · intro e he
        unfold correct_single_cb
        rw [hM]
        simp only [hE, he]
      · intro hne
        unfold correct_single_cb
        rw [hM]
        rcases hF : wl.filter (fun w => decide (my_hamming cb w = 0)) with _ | ⟨e, _ | ⟨e2, es⟩⟩
        · simp only [hE, hF]
        · rw [hF] at hne
          simp at hne
        · simp only [hE, hF]

/-- C5 witness: "AABA" against whitelist {AAAA, AABB} sits at distance 1
from both and at distance 0 from neither, so the result is ambiguous
over both entries. -/
theorem claimC5_multi_match_witness :
    2 ≤ (bkFind [['A', 'A', 'A', 'A'], ['A', 'A', 'B', 'B']] ['A', 'A', 'B', 'A']
      MAX_DIST).length ∧
    correct_single_cb ['A', 'A', 'B', 'A'] [['A', 'A', 'A', 'A'], ['A', 'A', 'B', 'B']] =
      .Ambigous ((bkFind [['A', 'A', 'A', 'A'], ['A', 'A', 'B', 'B']] ['A', 'A', 'B', 'A']
        MAX_DIST).map Prod.fst) :=
  ⟨by decide, (claimC5_multi_match _ _ (by decide) (by decide)).2.1 (by decide)⟩

end Bus
